import Mathlib

/-!
Verification development for the heading-aware document chunking core of the
summariser repository.

The embedding covers, over `List Char` strings:

* the `Line` classifier of `summd.py` (`Line.__init__` / `Line._detect_heading`
  / `Line.is_fence` / `Line.is_heading`),
* the chapter segmenter `split_by_heading` of `summd.py` (the copy in
  `summd-mlx.py` is textually identical),
* the block grouper `group_sections` / `split_block` of `summd.py`
  (namespace `Summd`) and the drifted variant of `summd-mlx.py`
  (namespace `SummdMlx`).

Python strings are modelled as `List Char`; Python integer sizes as `Nat`.
The module-level configuration constants `BLOCKSIZE` and `MIN_BLOCKSIZE`
are passed as explicit parameters `blocksize` / `min_blocksize`; every call
site in the repository uses the module defaults, so the parameter and the
global always coincide (in particular `split_block`, which the sources call
with its default `blocksize=BLOCKSIZE`, receives the same value).
A Python function that can raise on some input is modelled with an `Option`
result, `none` standing for the raised exception.
-/

/-- Python strings, modelled as lists of characters. -/
abbrev Str := List Char

/-- Length of the longest prefix whose characters all satisfy `p`
(used to model the regex pieces `[ ]{0,3}` and `(#+)`). -/
def countLeading (p : Char → Bool) : Str → Nat
  | [] => 0
  | c :: rest => if p c then countLeading p rest + 1 else 0

/-- The characters stripped by Python `str.strip()` with no argument
(ASCII whitespace: space, tab, newline, carriage return, vertical tab,
form feed). -/
def isPySpace (c : Char) : Bool :=
  c = ' ' || c = '\t' || c = '\n' || c = '\r' || c = '\x0b' || c = '\x0c'

/-- Python `s.rstrip(chars)`: remove the trailing run of characters
satisfying `p`. -/
def rstripP (p : Char → Bool) (l : Str) : Str :=
  (l.reverse.dropWhile p).reverse

/-- Python `s.strip()`: remove leading and trailing whitespace. -/
def pyStrip (l : Str) : Str :=
  rstripP isPySpace (l.dropWhile isPySpace)

/-- summd.py line 33: `MAX_HEADING_LEVEL = 6`. -/
def MAX_HEADING_LEVEL : Nat := 6

/-- summd.py line 32: `FENCES = ["```", "~~~"]`. -/
def FENCES : List Str := ["```".toList, "~~~".toList]

/-- summd.py `Line._detect_heading` (lines 176-189).  The regex
`^[ ]{0,3}(#+)(.*)` matches exactly when at most three leading spaces are
followed by at least one `#`; group 1 is the maximal run of `#` and group 2
the rest of the line (lines come from splitting the document on newlines, so
`.*`, which does not cross a newline, is simply the rest of the line).
Returns the pair (`heading_level`, `heading_title`); a failed detection
leaves the defaults `(0, none)`. -/
def detectHeading (l : Str) : Nat × Option Str :=
  let sp := countLeading (· = ' ') l
  if sp ≤ 3 then
    let afterSp := l.drop sp
    let k := countLeading (· = '#') afterSp
    if 1 ≤ k ∧ k ≤ MAX_HEADING_LEVEL then
      let title := afterSp.drop k
      if 0 < title.length ∧ ¬(title.head? = some ' ' ∨ title.head? = some '\t') then
        (0, none)
      else
        (k, some (rstripP isPySpace (rstripP (· = '#') (pyStrip title))))
    else (0, none)
  else (0, none)

/-- summd.py class `Line` (lines 160-198): the raw line text together with
the classification computed by `_detect_heading` in the constructor. -/
structure Line where
  full_line : Str
  heading_level : Nat
  heading_title : Option Str
deriving DecidableEq

/-- summd.py `Line.__init__`: store the line and run `_detect_heading`. -/
def mkLine (l : Str) : Line :=
  ⟨l, (detectHeading l).1, (detectHeading l).2⟩

/-- summd.py `Line.is_heading` (line 197). -/
def Line.is_heading (nl : Line) : Bool :=
  decide (0 < nl.heading_level)

/-- summd.py `Line.is_fence` (lines 191-195):
`self.full_line.startswith(fence)` for some fence in `FENCES`. -/
def Line.is_fence (nl : Line) : Bool :=
  FENCES.any (fun f => nl.full_line.take f.length == f)

/-- Whether a raw line is a fence line (the classifier's `is_fence` applied
to the freshly constructed `Line`). -/
def is_fence (l : Str) : Bool :=
  (mkLine l).is_fence

/-- summd.py line 35: `Chapter = namedtuple("Chapter", "parent_headings, heading, text")`;
`text` is the list of raw lines of the chapter. -/
structure Chapter where
  parent_headings : List Str
  heading : Option Line
  text : List Str
deriving DecidableEq

/-- summd.py `__get_parents` (lines 152-157).  `heading_line`, when present,
was installed at a chapter boundary and hence has `heading_level ≥ 1`;
the truncated subtraction in `take (heading_level - 1)` therefore agrees
with the Python slice `[: max_level - 1]`. -/
def getParents (parent_headings : List (Option Str)) (heading_line : Option Line) : List Str :=
  match heading_line with
  | none => []
  | some hl => ((parent_headings.take (hl.heading_level - 1)).filterMap id)

/-- summd.py lines 139-142: record the finished chapter's heading title at
index `heading_level - 1` and clear every deeper level
(`for level in range(curr_level, MAX_HEADING_LEVEL)`). -/
def recordHeading (parent_headings : List (Option Str)) (hl : Line) : List (Option Str) :=
  let lvl := hl.heading_level
  let ps := parent_headings.set (lvl - 1) hl.heading_title
  (List.range' lvl (MAX_HEADING_LEVEL - lvl)).foldl (fun acc level => acc.set level none) ps

/-- The loop state of `split_by_heading` (summd.py lines 120-123). -/
structure SegState where
  parent_headings : List (Option Str)
  curr_heading : Option Line
  curr_lines : List Str
  within_fence : Bool
deriving DecidableEq

/-- summd.py lines 130-132: the `is_chapter_finished` condition, evaluated
against the fence flag *after* the toggle of the current line. -/
def is_chapter_finished (within_fence : Bool) (nl : Line) (max_level : Nat) : Bool :=
  !within_fence && nl.is_heading && decide (nl.heading_level ≤ max_level)

/-- One iteration of the `for next_line in text` loop of `split_by_heading`
(summd.py lines 124-147): classify the line, toggle the fence flag if it is
a fence, possibly emit the accumulated chapter and record its heading, and
append the raw line to the current buffer. -/
def segStep (max_level : Nat) (st : SegState) (l : Str) : SegState × Option Chapter :=
  let nl := mkLine l
  let wf := if nl.is_fence then !st.within_fence else st.within_fence
  if is_chapter_finished wf nl max_level then
    match st.curr_lines with
    | [] =>
        (⟨st.parent_headings, some nl, [l], wf⟩, none)
    | c :: cs =>
        let ch : Chapter := ⟨getParents st.parent_headings st.curr_heading, st.curr_heading, c :: cs⟩
        let ps := match st.curr_heading with
          | none => st.parent_headings
          | some hl => recordHeading st.parent_headings hl
        (⟨ps, some nl, [l], wf⟩, some ch)
  else
    (⟨st.parent_headings, st.curr_heading, st.curr_lines ++ [l], wf⟩, none)

/-- The whole loop of `split_by_heading`, returning the final state and the
chapters yielded along the way, in order. -/
def segGo (max_level : Nat) (st : SegState) : List Str → SegState × List Chapter
  | [] => (st, [])
  | l :: rest =>
      let p := segStep max_level st l
      let q := segGo max_level p.1 rest
      (q.1, p.2.toList ++ q.2)

/-- The initial state of `split_by_heading` (summd.py lines 120-123). -/
def initState : SegState :=
  ⟨List.replicate MAX_HEADING_LEVEL none, none, [], false⟩

/-- summd.py `split_by_heading` (lines 115-149): run the loop and emit the
final chapter unconditionally (lines 148-149). -/
def split_by_heading (text : List Str) (max_level : Nat) : List Chapter :=
  let r := segGo max_level initState text
  r.2 ++ [⟨getParents r.1.parent_headings r.1.curr_heading, r.1.curr_heading, r.1.curr_lines⟩]

/-- The segmenter state after scanning a prefix of the input. -/
def stateAfter (max_level : Nat) (text : List Str) : SegState :=
  (segGo max_level initState text).1

/-- The value of `is_chapter_finished` computed at position `i` of the scan:
the fence flag reached after the first `i` lines, toggled by line `i` itself
when it is a fence, tested against the classification of line `i`.
`false` when `i` is out of range. -/
def boundaryAt (max_level : Nat) (text : List Str) (i : Nat) : Bool :=
  match text[i]? with
  | none => false
  | some l =>
      let st := stateAfter max_level (text.take i)
      let nl := mkLine l
      let wf := if nl.is_fence then !st.within_fence else st.within_fence
      is_chapter_finished wf nl max_level

/-- Number of fence lines in a list of raw lines. -/
def countFences (text : List Str) : Nat :=
  text.countP is_fence

/-- Python `rem_block.rfind("\n", 0, blocksize)` restricted to the searched
prefix: the index of the last newline in `l`, or `none` (Python `-1`). -/
def rfindNL : Str → Option Nat
  | [] => none
  | c :: rest =>
      match rfindNL rest with
      | some i => some (i + 1)
      | none => if c = '\n' then some 0 else none

/-- The `while len(rem_block) > 0` loop of `split_block`, with an explicit
fuel argument to make the recursion structural: every iteration removes at
least one character from `rem_block`, so any fuel of at least
`rem_block.length` runs the loop to completion. -/
def splitBlockLoop (blocksize : Nat) : Nat → Str → List Str
  | 0, _ => []
  | _ + 1, [] => []
  | fuel + 1, c :: rest =>
      match rfindNL ((c :: rest).take blocksize) with
      | some i => (c :: rest).take i :: splitBlockLoop blocksize fuel ((c :: rest).drop (i + 1))
      | none => [c :: rest]

/-- summd.py `split_block` (lines 61-72), identical in summd-mlx.py
(lines 68-79): repeatedly cut the block at the last newline occurring in its
first `blocksize` characters, dropping the newline; when no newline is found
there, emit the whole remainder and stop. -/
def split_block (blocksize : Nat) (block : Str) : List Str :=
  splitBlockLoop blocksize block.length block

/-- Python `groups[-1] += x` on a non-empty list: append `x` to the last
element (the empty-list case, where Python raises `IndexError`, is handled
at the call sites). -/
def appendToLast (x : Str) : List Str → List Str
  | [] => []
  | [g] => [g ++ x]
  | g :: g2 :: gs => g :: appendToLast x (g2 :: gs)

namespace Summd

/-- The loop and final flush of summd.py `group_sections` (lines 74-113),
parametrised by the accumulated `groups` and `curr_group`.  `none` models
the `IndexError` raised by `groups[-1]` when the final short remainder is
merged while `groups` is empty. -/
def go (blocksize min_blocksize : Nat) (groups : List Str) (curr_group : Str) :
    List Str → Option (List Str)
  | [] =>
      if curr_group.isEmpty then some groups
      else if curr_group.length < min_blocksize then
        match groups with
        | [] => none
        | g :: gs => some (appendToLast ('\n' :: curr_group) (g :: gs))
      else some (groups ++ [curr_group])
  | s :: rest =>
      if blocksize < curr_group.length + s.length then
        let groups1 := if 0 < curr_group.length then groups ++ [curr_group] else groups
        if blocksize < s.length then
          go blocksize min_blocksize (groups1 ++ split_block blocksize s) [] rest
        else
          go blocksize min_blocksize groups1 s rest
      else
        go blocksize min_blocksize groups (curr_group ++ '\n' :: s) rest

/-- summd.py `group_sections` (lines 74-113).  The module constants
`BLOCKSIZE` and `MIN_BLOCKSIZE` are the parameters `blocksize` and
`min_blocksize`; in the file they default to `NUM_CTX * 1.5 = 12288` and
`NUM_CTX / 2 = 4096`. -/
def group_sections (sections : List Str) (blocksize min_blocksize : Nat) :
    Option (List Str) :=
  go blocksize min_blocksize [] [] sections

end Summd

namespace SummdMlx

/-- The loop and final flush of summd-mlx.py `group_sections`
(lines 81-123).  Differences from summd.py: the flush happens only when
`len(curr_group) > MIN_BLOCKSIZE` (strict, and regardless of which branch
the flush feeds), sections are concatenated without a newline separator,
oversized accumulations (not raw sections) are force-split and the last
split piece is popped back into `curr_group`, and the final short remainder
falls back to a standalone singleton list when no group exists yet.
`none` models the `IndexError` of `groups.pop()` on an empty list (which
the size guards in fact make unreachable, as proved below). -/
def go (blocksize min_blocksize : Nat) (groups : List Str) (curr_group : Str) :
    List Str → Option (List Str)
  | [] =>
      if curr_group.isEmpty then some groups
      else if curr_group.length < min_blocksize then
        match groups with
        | [] => some [curr_group]
        | g :: gs => some (appendToLast curr_group (g :: gs))
      else some (groups ++ [curr_group])
  | s :: rest =>
      if blocksize < (curr_group ++ s).length then
        let p := if min_blocksize < curr_group.length then (groups ++ [curr_group], ([] : Str))
                 else (groups, curr_group)
        let curr2 := p.2 ++ s
        if blocksize < curr2.length then
          let groups2 := p.1 ++ split_block blocksize curr2
          match groups2.getLast? with
          | none => none
          | some last => go blocksize min_blocksize groups2.dropLast last rest
        else
          go blocksize min_blocksize p.1 curr2 rest
      else
        go blocksize min_blocksize groups (curr_group ++ s) rest

/-- summd-mlx.py `group_sections` (lines 81-123), with the module constants
`BLOCKSIZE = int(NUM_CTX * 1.5) = 12288` and
`MIN_BLOCKSIZE = int(NUM_CTX / 2) = 4096` as parameters. -/
def group_sections (sections : List Str) (blocksize min_blocksize : Nat) :
    Option (List Str) :=
  go blocksize min_blocksize [] [] sections

end SummdMlx

/-- Erase newline characters (the only characters the groupers insert as
separators or drop at force-split cuts). -/
def eraseNL (l : Str) : Str := l.filter (· != '\n')

theorem segStep_text (m : Nat) (st : SegState) (l : Str) :
    ((segStep m st l).2.elim [] Chapter.text) ++ (segStep m st l).1.curr_lines
      = st.curr_lines ++ [l] := by
  by_cases hf : is_chapter_finished
      (if (mkLine l).is_fence then !st.within_fence else st.within_fence) (mkLine l) m
  · cases hc : st.curr_lines with
    | nil => simp [segStep, hf, hc]
    | cons c cs => simp [segStep, hf, hc]
  · simp [segStep, hf]

theorem segGo_text (m : Nat) :
    ∀ (ls : List Str) (st : SegState),
      ((segGo m st ls).2.map Chapter.text).flatten ++ (segGo m st ls).1.curr_lines
        = st.curr_lines ++ ls := by
  intro ls
  induction ls with
  | nil => simp [segGo]
  | cons l rest ih =>
      intro st
      have h1 := segStep_text m st l
      have h2 := ih (segStep m st l).1
      simp only [segGo]
      cases hp : (segStep m st l).2 with
      | none =>
          rw [hp] at h1
          simp only [Option.elim, List.nil_append] at h1
          simpa [h1] using h2
      | some ch =>
          rw [hp] at h1
          simp only [Option.elim] at h1
          simp only [Option.toList, List.map_append, List.map_cons, List.map_nil,
            List.flatten_append, List.flatten_cons, List.flatten_nil, List.append_assoc,
            List.append_nil]
          rw [h2, ← List.append_assoc, h1]
          simp

/-- Claim C1: Segmenter round-trip — for every finite sequence of input
lines and every `max_level`, concatenating, in emission order, the `text`
line lists of all Chapters produced by `split_by_heading` reproduces
exactly the original input line sequence. -/
theorem segmenter_round_trip (text : List Str) (max_level : Nat) :
    ((split_by_heading text max_level).map Chapter.text).flatten = text := by
  unfold split_by_heading
  have h := segGo_text max_level text initState
  simp only [List.map_append, List.map_cons, List.map_nil, List.flatten_append,
    List.flatten_cons, List.flatten_nil, List.append_nil]
  simpa [initState] using h

theorem segStep_fence (m : Nat) (st : SegState) (l : Str) :
    (segStep m st l).1.within_fence
      = (if is_fence l then !st.within_fence else st.within_fence) := by
  by_cases hf : is_chapter_finished
      (if (mkLine l).is_fence then !st.within_fence else st.within_fence) (mkLine l) m
  · cases hc : st.curr_lines with
    | nil => simp [segStep, hf, hc, is_fence]
    | cons c cs => simp [segStep, hf, hc, is_fence]
  · simp [segStep, hf, is_fence]

theorem countFences_cons (l : Str) (rest : List Str) :
    countFences (l :: rest) = countFences rest + (if is_fence l then 1 else 0) := by
  simp [countFences, List.countP_cons]

theorem parity_flip (b : Bool) (n : Nat) :
    decide ((n + if b then 1 else 0) % 2 = 1) = (b ^^ decide (n % 2 = 1)) := by
  cases b
  · simp
  · simp only [if_pos, Bool.true_xor]
    have h : (n + 1) % 2 = 1 ↔ ¬ (n % 2 = 1) := by omega
    rw [decide_eq_decide.mpr h, decide_not]

theorem segGo_fence (m : Nat) :
    ∀ (ls : List Str) (st : SegState),
      (segGo m st ls).1.within_fence
        = (st.within_fence ^^ decide (countFences ls % 2 = 1)) := by
  intro ls
  induction ls with
  | nil => simp [segGo, countFences]
  | cons l rest ih =>
      intro st
      simp only [segGo]
      rw [ih, segStep_fence, countFences_cons, parity_flip]
      cases hf : is_fence l <;> cases hb : st.within_fence <;>
        cases hp : decide (countFences rest % 2 = 1) <;> rfl

theorem detectHeading_head (c : Char) (t : Str) (h1 : ¬ c = ' ') (h2 : ¬ c = '#') :
    detectHeading (c :: t) = (0, none) := by
  have e1 : ((fun x => decide (x = ' ')) c) = false := by simp [h1]
  have e2 : ((fun x => decide (x = '#')) c) = false := by simp [h2]
  simp [detectHeading, countLeading, e1, e2]

theorem fence_heading_level (l : Str) (h : is_fence l = true) :
    (mkLine l).heading_level = 0 := by
  cases l with
  | nil => simp [is_fence, mkLine, Line.is_fence, FENCES] at h
  | cons c t =>
      have e1 : ("```".toList : Str) = ['`', '`', '`'] := rfl
      have e2 : ("~~~".toList : Str) = ['~', '~', '~'] := rfl
      simp only [is_fence, mkLine, Line.is_fence, FENCES, List.any_cons, List.any_nil,
        e1, e2, Bool.or_eq_true, beq_iff_eq, Bool.or_false] at h
      have hc : c = '`' ∨ c = '~' := by
        rcases h with h | h
        · left
          have := congrArg List.head? h
          simpa using this
        · right
          have := congrArg List.head? h
          simpa using this
      have : detectHeading (c :: t) = (0, none) := by
        rcases hc with hc | hc <;> subst hc <;>
          exact detectHeading_head _ _ (by decide) (by decide)
      simp [mkLine, this]

/-- Claim C6: Fence suppression — while an odd number of fence lines have
been seen (the `within_fence` flag is set), no line, however heading-like,
makes `is_chapter_finished` true, i.e. no line starts a new chapter; in
particular an unterminated fence suppresses heading recognition through end
of input. -/
theorem fence_suppression (text : List Str) (max_level i : Nat)
    (h : countFences (text.take i) % 2 = 1) :
    boundaryAt max_level text i = false := by
  unfold boundaryAt
  cases hl : text[i]? with
  | none => rfl
  | some l =>
      have hwf : (stateAfter max_level (text.take i)).within_fence = true := by
        unfold stateAfter
        rw [segGo_fence]
        simp [initState, h]
      simp only [hwf]
      by_cases hf : (mkLine l).is_fence
      · have h0 : (mkLine l).heading_level = 0 := fence_heading_level l hf
        simp [hf, is_chapter_finished, Line.is_heading, h0]
      · simp [hf, is_chapter_finished]

/-- Witness for `fence_suppression`: in the input `["```", "# x"]` one fence
line precedes position 1, and the heading-like line `# x` there does not
finish a chapter. -/
theorem fence_suppression_witness :
    countFences (["```".toList, "# x".toList].take 1) % 2 = 1 ∧
      boundaryAt 3 ["```".toList, "# x".toList] 1 = false :=
  ⟨by decide, fence_suppression ["```".toList, "# x".toList] 3 1 (by decide)⟩

/-- Claim C7: Heading classification — `# Title` gives level 1 title
`Title`; seven or more hashes give level 0; `#Title` without a space gives
level 0; `#` followed by only whitespace gives level 1 with empty title;
and on success the title is the trailing text (after up to three leading
spaces and the hashes) stripped of surrounding whitespace, then of trailing
`#`, then of trailing whitespace again. -/
theorem heading_classification :
    detectHeading ("# Title".toList) = (1, some ("Title".toList)) ∧
    detectHeading ("####### Title".toList) = (0, none) ∧
    detectHeading ("#Title".toList) = (0, none) ∧
    detectHeading ("#   ".toList) = (1, some []) ∧
    (∀ (l : Str) (k : Nat) (t : Str), detectHeading l = (k, some t) → 0 < k →
      countLeading (· = ' ') l ≤ 3 ∧
        t = rstripP isPySpace (rstripP (· = '#')
              (pyStrip ((l.drop (countLeading (· = ' ') l)).drop k)))) := by
  refine ⟨by decide, by decide, by decide, by decide, ?_⟩
  intro l k t h hk
  unfold detectHeading at h
  by_cases hsp : countLeading (· = ' ') l ≤ 3
  · rw [if_pos hsp] at h
    by_cases hk6 : 1 ≤ countLeading (· = '#') (l.drop (countLeading (· = ' ') l)) ∧
        countLeading (· = '#') (l.drop (countLeading (· = ' ') l)) ≤ MAX_HEADING_LEVEL
    · rw [if_pos hk6] at h
      by_cases hbad : 0 < ((l.drop (countLeading (· = ' ') l)).drop
            (countLeading (· = '#') (l.drop (countLeading (· = ' ') l)))).length ∧
          ¬(((l.drop (countLeading (· = ' ') l)).drop
              (countLeading (· = '#') (l.drop (countLeading (· = ' ') l)))).head? = some ' ' ∨
            ((l.drop (countLeading (· = ' ') l)).drop
              (countLeading (· = '#') (l.drop (countLeading (· = ' ') l)))).head? = some '\t')
      · rw [if_pos hbad] at h
        simp at h
      · rw [if_neg hbad] at h
        have h1 : countLeading (· = '#') (l.drop (countLeading (· = ' ') l)) = k := by
          exact congrArg Prod.fst h
        have h2 := congrArg Prod.snd h
        simp only [Option.some.injEq] at h2
        refine ⟨hsp, ?_⟩
        rw [← h2, h1]
    · rw [if_neg hk6] at h
      simp at h
  · rw [if_neg hsp] at h
    simp at h

/-- Witness for `heading_classification`: the line `"  ## Doc ##"` is
classified as level 2 with title `"Doc"`, which matches the stripping
chain applied to its trailing text. -/
theorem heading_classification_witness :
    countLeading (· = ' ') ("  ## Doc ##".toList) ≤ 3 ∧
      ("Doc".toList : Str) = rstripP isPySpace (rstripP (· = '#')
        (pyStrip ((("  ## Doc ##".toList).drop
          (countLeading (· = ' ') ("  ## Doc ##".toList))).drop 2))) :=
  heading_classification.2.2.2.2 ("  ## Doc ##".toList) 2 ("Doc".toList) (by decide) (by decide)

theorem foldl_set_none :
    ∀ (n lo : Nat) (ps : List (Option Str)), lo + n = ps.length →
      (List.range' lo n).foldl (fun acc level => acc.set level none) ps
        = ps.take lo ++ List.replicate n none := by
  intro n
  induction n with
  | zero =>
      intro lo ps h
      simp [List.take_of_length_le (by omega : ps.length ≤ lo)]
  | succ n ih =>
      intro lo ps h
      have hr : List.range' lo (n + 1) = lo :: List.range' (lo + 1) n := rfl
      rw [hr]
      simp only [List.foldl_cons]
      rw [ih (lo + 1) (ps.set lo none) (by simpa using by omega)]
      have hlo : lo < ps.length := by omega
      rw [List.set_eq_take_cons_drop none hlo]
      rw [List.take_append_eq_append_take]
      have hlt : (ps.take lo).length = lo := by
        simp [List.length_take]
        omega
      rw [List.take_of_length_le (by omega : (ps.take lo).length ≤ lo + 1), hlt]
      simp [List.replicate_succ]

theorem recordHeading_eq (ps : List (Option Str)) (hl : Line)
    (hlen : ps.length = MAX_HEADING_LEVEL) (hge : 1 ≤ hl.heading_level)
    (hle : hl.heading_level ≤ MAX_HEADING_LEVEL) :
    recordHeading ps hl
      = ps.take (hl.heading_level - 1) ++ [hl.heading_title]
          ++ List.replicate (MAX_HEADING_LEVEL - hl.heading_level) none := by
  unfold recordHeading
  rw [foldl_set_none (MAX_HEADING_LEVEL - hl.heading_level) hl.heading_level
      (ps.set (hl.heading_level - 1) hl.heading_title) (by simp [hlen]; omega)]
  have hlt : hl.heading_level - 1 < ps.length := by omega
  rw [List.set_eq_take_cons_drop hl.heading_title hlt]
  rw [List.take_append_eq_append_take]
  have hlt2 : (ps.take (hl.heading_level - 1)).length = hl.heading_level - 1 := by
    simp [List.length_take]
    omega
  rw [List.take_of_length_le (by omega : (ps.take (hl.heading_level - 1)).length ≤ hl.heading_level),
    hlt2]
  have : hl.heading_level - (hl.heading_level - 1) = 1 := by omega
  rw [this]
  simp

/-- Claim C8: Parent tracking — on the heading sequence
`# A`, `## B`, `### C`, `## D` with `max_level = 3`, the chapter headed by
`C` has parents `["A", "B"]` and the chapter headed by `D` has parents
`["A"]`; in general `__get_parents` returns the recorded titles at levels
strictly above the chapter's own heading level, outermost first, skipping
absent levels, and recording a heading stores its title at its level and
clears all deeper levels. -/
theorem parent_tracking :
    split_by_heading ["# A".toList, "## B".toList, "### C".toList, "## D".toList] 3 =
      [⟨[], some ⟨"# A".toList, 1, some ("A".toList)⟩, ["# A".toList]⟩,
       ⟨["A".toList], some ⟨"## B".toList, 2, some ("B".toList)⟩, ["## B".toList]⟩,
       ⟨["A".toList, "B".toList], some ⟨"### C".toList, 3, some ("C".toList)⟩, ["### C".toList]⟩,
       ⟨["A".toList], some ⟨"## D".toList, 2, some ("D".toList)⟩, ["## D".toList]⟩] ∧
    (∀ (ps : List (Option Str)) (hl : Line),
        getParents ps (some hl) = (ps.take (hl.heading_level - 1)).filterMap id) ∧
    (∀ (ps : List (Option Str)) (hl : Line),
        ps.length = MAX_HEADING_LEVEL → 1 ≤ hl.heading_level →
        hl.heading_level ≤ MAX_HEADING_LEVEL →
        recordHeading ps hl
          = ps.take (hl.heading_level - 1) ++ [hl.heading_title]
              ++ List.replicate (MAX_HEADING_LEVEL - hl.heading_level) none) :=
  ⟨by decide, fun ps hl => rfl, recordHeading_eq⟩

/-- Witness for `parent_tracking`: recording a level-2 heading `## D` over
the parent array `[A, B, absent, absent, absent, absent]` keeps `A`, stores
`D` at level 2, and clears levels 3-6. -/
theorem parent_tracking_witness :
    recordHeading [some ("A".toList), some ("B".toList), none, none, none, none]
        ⟨"## D".toList, 2, some ("D".toList)⟩
      = ([some ("A".toList), some ("B".toList), none, none, none, none].take 1)
          ++ [some ("D".toList)] ++ List.replicate 4 none :=
  parent_tracking.2.2 [some ("A".toList), some ("B".toList), none, none, none, none]
    ⟨"## D".toList, 2, some ("D".toList)⟩ (by decide) (by decide) (by decide)

/-- Claim C9: Grouper variant divergence — at the files' configured sizes
(`BLOCKSIZE = 12288`, `MIN_BLOCKSIZE = 4096`), on the chapter texts
`["a", "b"]` the summd.py grouper raises (`IndexError` on `groups[-1]`,
modelled as `none`) while the summd-mlx.py grouper returns the single
block `"ab"`: the two `group_sections` copies are not extensionally
equal. -/
theorem grouper_variant_divergence :
    Summd.group_sections ["a".toList, "b".toList] 12288 4096 = none ∧
      SummdMlx.group_sections ["a".toList, "b".toList] 12288 4096 = some [("ab".toList)] :=
  ⟨by decide, by decide⟩

theorem segGo_headings (m : Nat) :
    ∀ (ls : List Str) (st : SegState),
      (∀ hl, st.curr_heading = some hl → hl = mkLine hl.full_line) →
      ((∀ hl, (segGo m st ls).1.curr_heading = some hl → hl = mkLine hl.full_line) ∧
        (∀ ch, ch ∈ (segGo m st ls).2 → ∀ hl, ch.heading = some hl → hl = mkLine hl.full_line)) := by
  intro ls
  induction ls with
  | nil =>
      intro st hst
      exact ⟨hst, by simp [segGo]⟩
  | cons l rest ih =>
      intro st hst
      have hstep : (∀ hl, (segStep m st l).1.curr_heading = some hl → hl = mkLine hl.full_line) ∧
          (∀ ch, (segStep m st l).2 = some ch → ∀ hl, ch.heading = some hl →
            hl = mkLine hl.full_line) := by
        by_cases hf : is_chapter_finished
            (if (mkLine l).is_fence then !st.within_fence else st.within_fence) (mkLine l) m
        · cases hc : st.curr_lines with
          | nil =>
              constructor
              · intro hl h
                simp [segStep, hf, hc] at h
                rw [← h]
                rfl
              · intro ch h
                simp [segStep, hf, hc] at h
          | cons c cs =>
              constructor
              · intro hl h
                simp [segStep, hf, hc] at h
                rw [← h]
                rfl
              · intro ch h
                simp [segStep, hf, hc] at h
                intro hl hh
                rw [← h] at hh
                exact hst hl hh
        · constructor
          · intro hl h
            simp [segStep, hf] at h
            exact hst hl h
          · intro ch h
            simp [segStep, hf] at h
      have := ih (segStep m st l).1 hstep.1
      refine ⟨this.1, ?_⟩
      intro ch hch hl hh
      simp only [segGo, List.mem_append] at hch
      rcases hch with hch | hch
      · cases hp : (segStep m st l).2 with
        | none => rw [hp] at hch; simp at hch
        | some ch0 =>
            rw [hp] at hch
            simp at hch
            rw [← hch] at hp
            exact hstep.2 ch hp hl hh
      · exact this.2 ch hch hl hh

/-- Claim C10: the classifier is fence-blind — the level and title stored
in any chapter heading are exactly `_detect_heading` of the heading's own
text, a function of the line alone (the fence flag is not an input of the
classifier); the fence flag enters `is_chapter_finished` only as the
negated gating conjunct; and a suppressed in-fence heading still carries
its level and title when inspected directly, while not starting a
chapter. -/
theorem classifier_fence_blind :
    (∀ (text : List Str) (max_level : Nat) (ch : Chapter),
        ch ∈ split_by_heading text max_level → ∀ hl, ch.heading = some hl →
          hl.heading_level = (detectHeading hl.full_line).1 ∧
          hl.heading_title = (detectHeading hl.full_line).2) ∧
    (∀ (wf : Bool) (nl : Line) (max_level : Nat),
        is_chapter_finished wf nl max_level
          = (!wf && is_chapter_finished false nl max_level)) ∧
    ((mkLine ("# inside fence".toList)).heading_level = 1 ∧
      (mkLine ("# inside fence".toList)).heading_title = some ("inside fence".toList) ∧
      (split_by_heading ["```".toList, "# inside fence".toList, "```".toList] 3).length = 1) := by
  refine ⟨?_, ?_, by decide, by decide, by decide⟩
  · intro text m ch hch hl hh
    have hinit : ∀ hl0, initState.curr_heading = some hl0 → hl0 = mkLine hl0.full_line := by
      intro hl0 h
      simp [initState] at h
    have hrun := segGo_headings m text initState hinit
    unfold split_by_heading at hch
    simp only [List.mem_append, List.mem_singleton] at hch
    have heq : hl = mkLine hl.full_line := by
      rcases hch with hch | hch
      · exact hrun.2 ch hch hl hh
      · rw [hch] at hh
        exact hrun.1 hl hh
    constructor
    · exact congrArg Line.heading_level heq
    · exact congrArg Line.heading_title heq
  · intro wf nl m
    cases wf <;> simp [is_chapter_finished]

/-- Witness for `classifier_fence_blind`: in the single-line document
`["# T"]` the emitted chapter's heading is classified exactly as
the classifier computes on the text `"# T"` alone. -/
theorem classifier_fence_blind_witness :
    (⟨"# T".toList, 1, some ("T".toList)⟩ : Line).heading_level
        = (detectHeading (("# T".toList : Str))).1 ∧
      (⟨"# T".toList, 1, some ("T".toList)⟩ : Line).heading_title
        = (detectHeading (("# T".toList : Str))).2 :=
  classifier_fence_blind.1 ["# T".toList] 3
    ⟨[], some ⟨"# T".toList, 1, some ("T".toList)⟩, ["# T".toList]⟩ (by decide)
    ⟨"# T".toList, 1, some ("T".toList)⟩ rfl

theorem eraseNL_append (a b : Str) : eraseNL (a ++ b) = eraseNL a ++ eraseNL b :=
  List.filter_append a b

theorem eraseNL_newline_cons (a : Str) : eraseNL ('\n' :: a) = eraseNL a := by
  simp [eraseNL]

theorem rfindNL_some (l : Str) : ∀ i, rfindNL l = some i → l[i]? = some '\n' := by
  induction l with
  | nil => intro i h; simp [rfindNL] at h
  | cons c rest ih =>
      intro i h
      simp only [rfindNL] at h
      cases hr : rfindNL rest with
      | some j =>
          rw [hr] at h
          simp only [Option.some.injEq] at h
          rw [← h]
          simpa using ih j hr
      | none =>
          rw [hr] at h
          by_cases hc : c = '\n'
          · rw [if_pos hc] at h
            simp only [Option.some.injEq] at h
            rw [← h]
            simp [hc]
          · rw [if_neg hc] at h
            simp at h

theorem rfindNL_eq_none (l : Str) : rfindNL l = none → '\n' ∉ l := by
  induction l with
  | nil => intro _; simp
  | cons c rest ih =>
      intro h
      simp only [rfindNL] at h
      cases hr : rfindNL rest with
      | some j => rw [hr] at h; simp at h
      | none =>
          rw [hr] at h
          by_cases hc : c = '\n'
          · rw [if_pos hc] at h; simp at h
          · rw [if_neg hc] at h
            intro hmem
            rcases List.mem_cons.mp hmem with he | he
            · exact hc he.symm
            · exact ih hr he

theorem getElem?_newline_split (l : Str) (i : Nat) (h : l[i]? = some '\n') :
    l = l.take i ++ '\n' :: l.drop (i + 1) := by
  obtain ⟨hlt, heq⟩ := List.getElem?_eq_some.mp h
  conv_lhs => rw [← List.take_append_drop i l]
  rw [List.drop_eq_getElem_cons hlt, heq]

theorem splitBlockLoop_content (bs : Nat) :
    ∀ (fuel : Nat) (s : Str), s.length ≤ fuel →
      eraseNL (splitBlockLoop bs fuel s).flatten = eraseNL s := by
  intro fuel
  induction fuel with
  | zero =>
      intro s hs
      have hnil : s = [] := List.length_eq_zero.mp (Nat.le_zero.mp hs)
      subst hnil
      simp [splitBlockLoop]
  | succ fuel ih =>
      intro s hs
      cases s with
      | nil => simp [splitBlockLoop]
      | cons c rest =>
          simp only [splitBlockLoop]
          cases hr : rfindNL ((c :: rest).take bs) with
          | some i =>
              have h1 := rfindNL_some _ i hr
              have hlt : i < ((c :: rest).take bs).length := (List.getElem?_eq_some.mp h1).1
              have hibs : i < bs := by
                simp only [List.length_take] at hlt
                omega
              have hn : (c :: rest)[i]? = some '\n' := by
                rw [← List.getElem?_take_of_lt hibs]
                exact h1
              have hdec := getElem?_newline_split _ i hn
              have hlen : ((c :: rest).drop (i + 1)).length ≤ fuel := by
                simp only [List.length_drop, List.length_cons] at *
                omega
              simp only [List.flatten_cons]
              rw [eraseNL_append, ih ((c :: rest).drop (i + 1)) hlen]
              conv_rhs => rw [hdec]
              rw [eraseNL_append, eraseNL_newline_cons]
          | none =>
              simp

theorem splitBlockLoop_pieces (bs : Nat) :
    ∀ (fuel : Nat) (s g : Str), s.length ≤ fuel → g ∈ splitBlockLoop bs fuel s →
      g.length ≤ bs ∨ '\n' ∉ g.take bs := by
  intro fuel
  induction fuel with
  | zero =>
      intro s g hs hg
      have hnil : s = [] := List.length_eq_zero.mp (Nat.le_zero.mp hs)
      subst hnil
      simp [splitBlockLoop] at hg
  | succ fuel ih =>
      intro s g hs hg
      cases s with
      | nil => simp [splitBlockLoop] at hg
      | cons c rest =>
          simp only [splitBlockLoop] at hg
          cases hr : rfindNL ((c :: rest).take bs) with
          | some i =>
              rw [hr] at hg
              simp only [List.mem_cons] at hg
              rcases hg with hg | hg
              · left
                have h1 := rfindNL_some _ i hr
                have hlt : i < ((c :: rest).take bs).length := (List.getElem?_eq_some.mp h1).1
                have hibs : i ≤ bs := by
                  simp only [List.length_take] at hlt
                  omega
                rw [hg]
                simp only [List.length_take]
                omega
              · have hlen : ((c :: rest).drop (i + 1)).length ≤ fuel := by
                  simp only [List.length_drop, List.length_cons] at *
                  omega
                exact ih _ g hlen hg
          | none =>
              rw [hr] at hg
              simp only [List.mem_singleton] at hg
              right
              rw [hg]
              exact rfindNL_eq_none _ hr

theorem splitBlockLoop_ne_nil (bs fuel : Nat) (c : Char) (rest : Str) :
    splitBlockLoop bs (fuel + 1) (c :: rest) ≠ [] := by
  simp only [splitBlockLoop]
  cases hr : rfindNL ((c :: rest).take bs) <;> simp

theorem split_block_content (bs : Nat) (s : Str) :
    eraseNL (split_block bs s).flatten = eraseNL s :=
  splitBlockLoop_content bs s.length s le_rfl

theorem split_block_pieces (bs : Nat) (s g : Str) (h : g ∈ split_block bs s) :
    g.length ≤ bs ∨ '\n' ∉ g.take bs :=
  splitBlockLoop_pieces bs s.length s g le_rfl h

theorem split_block_ne_nil (bs : Nat) (s : Str) (h : s ≠ []) : split_block bs s ≠ [] := by
  cases s with
  | nil => exact absurd rfl h
  | cons c rest => exact splitBlockLoop_ne_nil bs rest.length c rest

theorem appendToLast_eq (x : Str) :
    ∀ (l : List Str) (h : l ≠ []),
      appendToLast x l = l.dropLast ++ [l.getLast h ++ x] := by
  intro l
  induction l with
  | nil => intro h; exact absurd rfl h
  | cons g gs ih =>
      intro h
      cases gs with
      | nil => simp [appendToLast]
      | cons g2 gs2 =>
          simp only [appendToLast]
          rw [ih (by simp)]
          simp [List.getLast_cons]

theorem summd_go_content (bs mn : Nat) :
    ∀ (rest : List Str) (groups : List Str) (curr : Str) (gs : List Str),
      Summd.go bs mn groups curr rest = some gs →
      eraseNL gs.flatten = eraseNL (groups.flatten ++ curr ++ rest.flatten) := by
  intro rest
  induction rest with
  | nil =>
      intro groups curr gs h
      simp only [Summd.go] at h
      by_cases hc : curr.isEmpty
      · rw [if_pos hc] at h
        have hcur : curr = [] := by
          cases curr with
          | nil => rfl
          | cons a b => simp [List.isEmpty] at hc
        subst hcur
        simp only [Option.some.injEq] at h
        rw [← h]
        simp
      · rw [if_neg hc] at h
        by_cases hm : curr.length < mn
        · rw [if_pos hm] at h
          cases hg : groups with
          | nil => rw [hg] at h; simp at h
          | cons g gsl =>
              rw [hg] at h
              simp only [Option.some.injEq] at h
              rw [← h, appendToLast_eq _ _ (by simp)]
              conv_rhs => rw [← List.dropLast_append_getLast (l := g :: gsl) (by simp)]
              simp [eraseNL_append, eraseNL_newline_cons, List.append_assoc]
        · rw [if_neg hm] at h
          simp only [Option.some.injEq] at h
          rw [← h]
          simp [eraseNL_append]
  | cons s rest ih =>
      intro groups curr gs h
      simp only [Summd.go] at h
      by_cases hov : bs < curr.length + s.length
      · rw [if_pos hov] at h
        have hg1 : (if 0 < curr.length then groups ++ [curr] else groups).flatten
            = groups.flatten ++ curr := by
          by_cases hz : 0 < curr.length
          · rw [if_pos hz]
            simp
          · rw [if_neg hz]
            have hcur : curr = [] := by
              cases curr with
              | nil => rfl
              | cons a b => simp at hz
            subst hcur
            simp
        by_cases hsb : bs < s.length
        · rw [if_pos hsb] at h
          rw [ih _ [] gs h]
          simp only [List.flatten_append]
          rw [hg1]
          simp [eraseNL_append, split_block_content, List.append_assoc]
        · rw [if_neg hsb] at h
          rw [ih _ s gs h, hg1]
          simp [eraseNL_append, List.append_assoc]
      · rw [if_neg hov] at h
        rw [ih groups (curr ++ '\n' :: s) gs h]
        simp [eraseNL_append, eraseNL_newline_cons, List.append_assoc]

/-- Claim C2: Grouper no content loss — whenever summd.py `group_sections`
returns a block list, the concatenation of the blocks equals the
concatenation of the input chapter texts up to newline characters (the
separators the accumulator inserts and the characters `split_block` drops
at its cuts): erasing newlines on both sides gives identical character
sequences, so no non-newline character is lost, duplicated or reordered. -/
theorem grouper_no_content_loss (sections : List Str) (blocksize min_blocksize : Nat)
    (gs : List Str) (h : Summd.group_sections sections blocksize min_blocksize = some gs) :
    eraseNL gs.flatten = eraseNL sections.flatten := by
  have := summd_go_content blocksize min_blocksize sections [] [] gs h
  simpa using this

/-- Witness for `grouper_no_content_loss`: on `["ab", "cd"]` with
`blocksize = 100`, `min_blocksize = 1`, the grouper returns the single
block `"\nab\ncd"`, whose newline-erased content equals `"abcd"`. -/
theorem grouper_no_content_loss_witness :
    eraseNL ([("\nab\ncd".toList : Str)]).flatten
      = eraseNL (["ab".toList, ("cd".toList : Str)]).flatten :=
  grouper_no_content_loss ["ab".toList, "cd".toList] 100 1 [("\nab\ncd".toList)] (by decide)

theorem mlx_go_total (bs mn : Nat) :
    ∀ (rest : List Str) (groups : List Str) (curr : Str),
      (SummdMlx.go bs mn groups curr rest).isSome = true := by
  intro rest
  induction rest with
  | nil =>
      intro groups curr
      simp only [SummdMlx.go]
      by_cases hc : curr.isEmpty
      · rw [if_pos hc]
        simp
      · rw [if_neg hc]
        by_cases hm : curr.length < mn
        · rw [if_pos hm]
          cases groups <;> simp
        · rw [if_neg hm]
          simp
  | cons s rest ih =>
      intro groups curr
      simp only [SummdMlx.go]
      by_cases hov : bs < (curr ++ s).length
      · rw [if_pos hov]
        set p := if mn < curr.length then (groups ++ [curr], ([] : Str)) else (groups, curr)
          with hp
        by_cases h2 : bs < (p.2 ++ s).length
        · rw [if_pos h2]
          have hne : p.1 ++ split_block bs (p.2 ++ s) ≠ [] := by
            have hs2 : (p.2 ++ s) ≠ [] := by
              intro hnil
              rw [hnil] at h2
              simp at h2
            intro hcontra
            exact split_block_ne_nil bs _ hs2 (List.append_eq_nil.mp hcontra).2
          cases hl : (p.1 ++ split_block bs (p.2 ++ s)).getLast? with
          | none => exact absurd (List.getLast?_eq_none_iff.mp hl) hne
          | some last =>
              exact ih _ _
        · rw [if_neg h2]
          exact ih _ _
      · rw [if_neg hov]
        exact ih _ _

/-- Claim C4 (code bug): on the degenerate input `["ab"]` with the
configured sizes, summd.py `group_sections` reaches the final flush with an
empty `groups` list and a short remainder and raises `IndexError` on
`groups[-1]` (modelled `none`), while summd-mlx.py emits the remainder as a
standalone block; moreover the summd-mlx.py variant never raises on any
input. -/
theorem grouper_totality_bug :
    Summd.group_sections ["ab".toList] 12288 4096 = none ∧
    SummdMlx.group_sections ["ab".toList] 12288 4096 = some [("ab".toList)] ∧
    (∀ (sections : List Str) (blocksize min_blocksize : Nat),
        (SummdMlx.group_sections sections blocksize min_blocksize).isSome = true) :=
  ⟨by decide, by decide, fun sections bs mn => mlx_go_total bs mn sections [] []⟩

theorem summd_go_bound (bs mn : Nat) :
    ∀ (rest groups : List Str) (curr : Str) (gs : List Str),
      (∀ g ∈ groups, g.length ≤ bs + 1 ∨ '\n' ∉ g.take bs) →
      curr.length ≤ bs + 1 →
      Summd.go bs mn groups curr rest = some gs →
      ∀ g ∈ gs, g.length ≤ bs + 1 ∨ '\n' ∉ g.take bs ∨
        (gs.getLast? = some g ∧ g.length ≤ bs + mn + 1) := by
  intro rest
  induction rest with
  | nil =>
      intro groups curr gs hQ hc h
      simp only [Summd.go] at h
      by_cases hce : curr.isEmpty
      · rw [if_pos hce] at h
        simp only [Option.some.injEq] at h
        subst h
        intro g hg
        rcases hQ g hg with h1 | h1
        · exact Or.inl h1
        · exact Or.inr (Or.inl h1)
      · rw [if_neg hce] at h
        by_cases hm : curr.length < mn
        · rw [if_pos hm] at h
          cases hgr : groups with
          | nil => rw [hgr] at h; simp at h
          | cons g0 gsl =>
              rw [hgr] at h
              simp only [Option.some.injEq] at h
              rw [appendToLast_eq _ _ (by simp)] at h
              subst h
              intro g hg
              rcases List.mem_append.mp hg with hg1 | hg1
              · have : g ∈ g0 :: gsl := List.mem_of_mem_dropLast hg1
                rw [← hgr] at this
                rcases hQ g this with h1 | h1
                · exact Or.inl h1
                · exact Or.inr (Or.inl h1)
              · simp only [List.mem_singleton] at hg1
                subst hg1
                have hlastmem : (g0 :: gsl).getLast (by simp) ∈ groups := by
                  rw [hgr]
                  exact List.getLast_mem (by simp)
                have hgl : ((g0 :: gsl).dropLast
                    ++ [(g0 :: gsl).getLast (by simp) ++ '\n' :: curr]).getLast?
                    = some ((g0 :: gsl).getLast (by simp) ++ '\n' :: curr) :=
                  List.getLast?_concat _
                rcases hQ _ hlastmem with h1 | h1
                · refine Or.inr (Or.inr ⟨hgl, ?_⟩)
                  simp only [List.length_append, List.length_cons]
                  omega
                · by_cases hbl : bs ≤ ((g0 :: gsl).getLast (by simp)).length
                  · refine Or.inr (Or.inl ?_)
                    rw [List.take_append_of_le_length hbl]
                    exact h1
                  · refine Or.inr (Or.inr ⟨hgl, ?_⟩)
                    simp only [List.length_append, List.length_cons]
                    omega
        · rw [if_neg hm] at h
          simp only [Option.some.injEq] at h
          subst h
          intro g hg
          rcases List.mem_append.mp hg with hg1 | hg1
          · rcases hQ g hg1 with h1 | h1
            · exact Or.inl h1
            · exact Or.inr (Or.inl h1)
          · simp only [List.mem_singleton] at hg1
            subst hg1
            exact Or.inl hc
  | cons s rest ih =>
      intro groups curr gs hQ hc h
      simp only [Summd.go] at h
      by_cases hov : bs < curr.length + s.length
      · rw [if_pos hov] at h
        have hQ1 : ∀ g ∈ (if 0 < curr.length then groups ++ [curr] else groups),
            g.length ≤ bs + 1 ∨ '\n' ∉ g.take bs := by
          by_cases hz : 0 < curr.length
          · rw [if_pos hz]
            intro g hg
            rcases List.mem_append.mp hg with hg1 | hg1
            · exact hQ g hg1
            · simp only [List.mem_singleton] at hg1
              subst hg1
              exact Or.inl hc
          · rw [if_neg hz]
            exact hQ
        by_cases hsb : bs < s.length
        · rw [if_pos hsb] at h
          refine ih _ [] gs ?_ (by simp) h
          intro g hg
          rcases List.mem_append.mp hg with hg1 | hg1
          · exact hQ1 g hg1
          · rcases split_block_pieces bs s g hg1 with h1 | h1
            · exact Or.inl (by omega)
            · exact Or.inr h1
        · rw [if_neg hsb] at h
          exact ih _ s gs hQ1 (by omega) h
      · rw [if_neg hov] at h
        refine ih groups (curr ++ '\n' :: s) gs hQ ?_ h
        simp only [List.length_append, List.length_cons]
        omega

theorem mlx_go_bound (bs mn : Nat) :
    ∀ (rest groups : List Str) (curr : Str) (gs : List Str),
      (∀ g ∈ groups, g.length ≤ bs ∨ '\n' ∉ g.take bs) →
      (curr.length ≤ bs ∨ '\n' ∉ curr.take bs) →
      SummdMlx.go bs mn groups curr rest = some gs →
      ∀ g ∈ gs, g.length ≤ bs ∨ '\n' ∉ g.take bs ∨
        (gs.getLast? = some g ∧ g.length ≤ bs + mn) := by
  intro rest
  induction rest with
  | nil =>
      intro groups curr gs hQ hc h
      simp only [SummdMlx.go] at h
      by_cases hce : curr.isEmpty
      · rw [if_pos hce] at h
        simp only [Option.some.injEq] at h
        subst h
        intro g hg
        rcases hQ g hg with h1 | h1
        · exact Or.inl h1
        · exact Or.inr (Or.inl h1)
      · rw [if_neg hce] at h
        by_cases hm : curr.length < mn
        · rw [if_pos hm] at h
          cases hgr : groups with
          | nil =>
              rw [hgr] at h
              simp only [Option.some.injEq] at h
              subst h
              intro g hg
              simp only [List.mem_singleton] at hg
              subst hg
              rcases hc with h1 | h1
              · exact Or.inl h1
              · exact Or.inr (Or.inl h1)
          | cons g0 gsl =>
              rw [hgr] at h
              simp only [Option.some.injEq] at h
              rw [appendToLast_eq _ _ (by simp)] at h
              subst h
              intro g hg
              rcases List.mem_append.mp hg with hg1 | hg1
              · have : g ∈ g0 :: gsl := List.mem_of_mem_dropLast hg1
                rw [← hgr] at this
                rcases hQ g this with h1 | h1
                · exact Or.inl h1
                · exact Or.inr (Or.inl h1)
              · simp only [List.mem_singleton] at hg1
                subst hg1
                have hlastmem : (g0 :: gsl).getLast (by simp) ∈ groups := by
                  rw [hgr]
                  exact List.getLast_mem (by simp)
                have hgl : ((g0 :: gsl).dropLast
                    ++ [(g0 :: gsl).getLast (by simp) ++ curr]).getLast?
                    = some ((g0 :: gsl).getLast (by simp) ++ curr) :=
                  List.getLast?_concat _
                rcases hQ _ hlastmem with h1 | h1
                · refine Or.inr (Or.inr ⟨hgl, ?_⟩)
                  simp only [List.length_append]
                  omega
                · by_cases hbl : bs ≤ ((g0 :: gsl).getLast (by simp)).length
                  · refine Or.inr (Or.inl ?_)
                    rw [List.take_append_of_le_length hbl]
                    exact h1
                  · refine Or.inr (Or.inr ⟨hgl, ?_⟩)
                    simp only [List.length_append]
                    omega
        · rw [if_neg hm] at h
          simp only [Option.some.injEq] at h
          subst h
          intro g hg
          rcases List.mem_append.mp hg with hg1 | hg1
          · rcases hQ g hg1 with h1 | h1
            · exact Or.inl h1
            · exact Or.inr (Or.inl h1)
          · simp only [List.mem_singleton] at hg1
            subst hg1
            rcases hc with h1 | h1
            · exact Or.inl h1
            · exact Or.inr (Or.inl h1)
  | cons s rest ih =>
      intro groups curr gs hQ hc h
      simp only [SummdMlx.go] at h
      by_cases hov : bs < (curr ++ s).length
      · rw [if_pos hov] at h
        set p := if mn < curr.length then (groups ++ [curr], ([] : Str)) else (groups, curr)
          with hp
        have hQp : ∀ g ∈ p.1, g.length ≤ bs ∨ '\n' ∉ g.take bs := by
          rw [hp]
          by_cases hz : mn < curr.length
          · rw [if_pos hz]
            intro g hg
            rcases List.mem_append.mp hg with hg1 | hg1
            · exact hQ g hg1
            · simp only [List.mem_singleton] at hg1
              subst hg1
              exact hc
          · rw [if_neg hz]
            exact hQ
        have hQc2 : ∀ g ∈ split_block bs (p.2 ++ s), g.length ≤ bs ∨ '\n' ∉ g.take bs :=
          fun g hg => split_block_pieces bs _ g hg
        by_cases h2 : bs < (p.2 ++ s).length
        · rw [if_pos h2] at h
          cases hl : (p.1 ++ split_block bs (p.2 ++ s)).getLast? with
          | none => rw [hl] at h; simp at h
          | some last =>
              rw [hl] at h
              refine ih _ last gs ?_ ?_ h
              · intro g hg
                have hg2 : g ∈ p.1 ++ split_block bs (p.2 ++ s) := List.mem_of_mem_dropLast hg
                rcases List.mem_append.mp hg2 with hg1 | hg1
                · exact hQp g hg1
                · exact hQc2 g hg1
              · have hlm : last ∈ p.1 ++ split_block bs (p.2 ++ s) :=
                  List.mem_of_mem_getLast? hl
                rcases List.mem_append.mp hlm with hg1 | hg1
                · exact hQp last hg1
                · exact hQc2 last hg1
        · rw [if_neg h2] at h
          exact ih _ _ gs hQp (Or.inl (by omega)) h
      · rw [if_neg hov] at h
        exact ih groups (curr ++ s) gs hQ (Or.inl (by omega)) h

/-- Counterexample to claim C3 as stated: with `blocksize = 9` and the
module `MIN_BLOCKSIZE = 4096`, summd.py merges the two chapters `"aaaa"`
and `"bbbb"` (each of length 4 ≤ 9) into the single emitted block
`"\naaaa\nbbbb"` of length 10 > 9 — a block accumulated from two chapters
exceeds `blocksize` (the inserted newline separators push it over). -/
theorem grouping_bound_counterexample :
    Summd.group_sections ["aaaa".toList, "bbbb".toList, []] 9 4096
        = some [("\naaaa\nbbbb".toList)] ∧
      ("\naaaa\nbbbb".toList : Str).length = 10 ∧
      ("aaaa".toList : Str).length ≤ 9 ∧ ("bbbb".toList : Str).length ≤ 9 := by
  refine ⟨by decide, by decide, by decide, by decide⟩

/-- Claim C3 (amended): every block emitted by summd.py `group_sections`
has length at most `blocksize + 1` (the one extra character being an
inserted newline separator), or has no newline among its first `blocksize`
characters (the uncuttable remainder of force-splitting a single oversized
chapter), or is the final block into which a trailing remainder shorter
than `min_blocksize` was merged (length at most
`blocksize + min_blocksize + 1`).  For summd-mlx.py the same holds with
bounds `blocksize` and `blocksize + min_blocksize` (it inserts no
separators). -/
theorem grouping_bound_amended :
    (∀ (sections : List Str) (blocksize min_blocksize : Nat) (gs : List Str),
        Summd.group_sections sections blocksize min_blocksize = some gs →
        ∀ g ∈ gs, g.length ≤ blocksize + 1 ∨ '\n' ∉ g.take blocksize ∨
          (gs.getLast? = some g ∧ g.length ≤ blocksize + min_blocksize + 1)) ∧
    (∀ (sections : List Str) (blocksize min_blocksize : Nat) (gs : List Str),
        SummdMlx.group_sections sections blocksize min_blocksize = some gs →
        ∀ g ∈ gs, g.length ≤ blocksize ∨ '\n' ∉ g.take blocksize ∨
          (gs.getLast? = some g ∧ g.length ≤ blocksize + min_blocksize)) :=
  ⟨fun sections bs mn gs h =>
      summd_go_bound bs mn sections [] [] gs (by simp) (by simp) h,
    fun sections bs mn gs h =>
      mlx_go_bound bs mn sections [] [] gs (by simp) (Or.inl (by simp)) h⟩

/-- Witness for `grouping_bound_amended`: the single block `"\nab\ncd"`
produced from `["ab", "cd"]` at `blocksize = 100`, `min_blocksize = 1`
satisfies the amended bound (its length 6 is at most 101). -/
theorem grouping_bound_amended_witness :
    ("\nab\ncd".toList : Str).length ≤ 100 + 1 ∨
      '\n' ∉ ("\nab\ncd".toList : Str).take 100 ∨
      (([("\nab\ncd".toList : Str)]).getLast? = some ("\nab\ncd".toList) ∧
        ("\nab\ncd".toList : Str).length ≤ 100 + 1 + 1) :=
  grouping_bound_amended.1 ["ab".toList, "cd".toList] 100 1 [("\nab\ncd".toList)]
    (by decide) ("\nab\ncd".toList) (by simp)

/-- Counterexample to claim C5 as stated: with `blocksize = 9` and
`min_blocksize = 4096`, the accumulated block `"\nab"` (length 3, far below
`min_blocksize`) is flushed as a completed block as soon as the next
chapter overflows — summd.py flushes whenever the current block is
non-empty, not only when its length reaches `min_blocksize`; and the
force-split remainder `"cccccccccc"` is emitted as its own block rather
than restored as the new current block (had it been restored with an empty
rest, the final flush would have merged it into the previous block). -/
theorem flush_restore_counterexample :
    Summd.group_sections ["ab".toList, "cccccccccc".toList] 9 4096
        = some [("\nab".toList), ("cccccccccc".toList)] ∧
      ("\nab".toList : Str).length < 4096 :=
  ⟨by decide, by decide⟩

/-- Claim C5 (amended): in summd.py, when the next chapter `s` would
overflow, a non-empty current block is always flushed (regardless of
`min_blocksize`); if `s` itself fits it becomes the new current block, and
if `s` exceeds `blocksize` all of its force-split pieces, the final
remainder included, are emitted and the current block is reset to empty.
In summd-mlx.py, a current block at most `min_blocksize` long is not
flushed; the chapter is appended and, on force-split, the final remainder
piece is popped back as the new current block. -/
theorem flush_restore_amended :
    (∀ (blocksize min_blocksize : Nat) (groups : List Str) (curr s : Str)
        (rest : List Str), curr ≠ [] → blocksize < curr.length + s.length →
        ¬ blocksize < s.length →
        Summd.go blocksize min_blocksize groups curr (s :: rest)
          = Summd.go blocksize min_blocksize (groups ++ [curr]) s rest) ∧
    (∀ (blocksize min_blocksize : Nat) (groups : List Str) (curr s : Str)
        (rest : List Str), curr ≠ [] → blocksize < curr.length + s.length →
        blocksize < s.length →
        Summd.go blocksize min_blocksize groups curr (s :: rest)
          = Summd.go blocksize min_blocksize
              ((groups ++ [curr]) ++ split_block blocksize s) [] rest) ∧
    (∀ (blocksize min_blocksize : Nat) (groups : List Str) (curr s : Str)
        (rest : List Str), ¬ min_blocksize < curr.length →
        blocksize < (curr ++ s).length →
        ∃ (pre : List Str) (last : Str),
          split_block blocksize (curr ++ s) = pre ++ [last] ∧
          SummdMlx.go blocksize min_blocksize groups curr (s :: rest)
            = SummdMlx.go blocksize min_blocksize (groups ++ pre) last rest) := by
  refine ⟨?_, ?_, ?_⟩
  · intro bs mn groups curr s rest hne hov hsb
    have hz : 0 < curr.length := by
      cases curr with
      | nil => exact absurd rfl hne
      | cons a b => simp
    simp only [Summd.go]
    rw [if_pos hov, if_pos hz, if_neg hsb]
  · intro bs mn groups curr s rest hne hov hsb
    have hz : 0 < curr.length := by
      cases curr with
      | nil => exact absurd rfl hne
      | cons a b => simp
    simp only [Summd.go]
    rw [if_pos hov, if_pos hz, if_pos hsb]
  · intro bs mn groups curr s rest hm hov
    have hs2 : (curr ++ s) ≠ [] := by
      intro hnil
      rw [hnil] at hov
      simp at hov
    have hpieces : split_block bs (curr ++ s) ≠ [] := split_block_ne_nil bs _ hs2
    refine ⟨(split_block bs (curr ++ s)).dropLast,
      (split_block bs (curr ++ s)).getLast hpieces, ?_, ?_⟩
    · exact (List.dropLast_append_getLast hpieces).symm
    · simp only [SummdMlx.go]
      rw [if_pos hov, if_neg hm]
      simp only []
      rw [if_pos hov]
      have hgl : (groups ++ split_block bs (curr ++ s)).getLast?
          = some ((split_block bs (curr ++ s)).getLast hpieces) := by
        rw [List.getLast?_append_of_ne_nil groups hpieces]
        exact List.getLast?_eq_getLast _ hpieces
      rw [hgl]
      rw [List.dropLast_append_of_ne_nil groups hpieces]

/-- Witness for `flush_restore_amended`: concrete instances of the three
step equations at `blocksize = 9`, `min_blocksize = 4096`. -/
theorem flush_restore_amended_witness :
    (Summd.go 9 4096 [] ("ab".toList) ["defghijk".toList]
        = Summd.go 9 4096 [("ab".toList)] ("defghijk".toList) []) ∧
    (Summd.go 9 4096 [] ("ab".toList) ["cccccccccc".toList]
        = Summd.go 9 4096 (([] ++ [("ab".toList)]) ++ split_block 9 ("cccccccccc".toList))
            [] []) ∧
    (∃ (pre : List Str) (last : Str),
        split_block 9 ("ab".toList ++ "cccccccccc".toList) = pre ++ [last] ∧
        SummdMlx.go 9 4096 [] ("ab".toList) ["cccccccccc".toList]
          = SummdMlx.go 9 4096 ([] ++ pre) last []) :=
  ⟨flush_restore_amended.1 9 4096 [] ("ab".toList) ("defghijk".toList) [] (by decide)
      (by decide) (by decide),
    flush_restore_amended.2.1 9 4096 [] ("ab".toList) ("cccccccccc".toList) [] (by decide)
      (by decide) (by decide),
    flush_restore_amended.2.2 9 4096 [] ("ab".toList) ("cccccccccc".toList) [] (by decide)
      (by decide)⟩
